import Mathlib

/-!
# Verification of the CasperLabs execution-engine core (excerpted slice)

A shallow embedding of the repository slice under verification:

* `engine-shared/src/motes.rs` — the `Motes` currency wrapper over a 512-bit
  unsigned integer (`U512` from the `uint` crate), with checked and unchecked
  arithmetic.
* `contracts/client/unbonding/src/lib.rs` — the unbonding client contract.
* The global-state commit engine and the genesis bootstrap, whose
  implementations are not part of the excerpt (only their tests are); these
  are modelled from the specification, as marked on each definition.

Machine integers are represented as `Nat` carrying an explicit upper bound,
so that overflow behaviour is stated exactly.  Operations of the `uint`
crate panic (they do not wrap) on overflow, underflow and division by zero;
a panic is modelled by the distinguished outcome `ArithOutcome.panicked`,
while Rust `Option`-returning checked operations are modelled by `Option`.
-/

set_option maxRecDepth 10000

namespace CasperLabs

/-! ## 512-bit and 64-bit unsigned integers -/

def u64Size : Nat := 2 ^ 64

def u512Size : Nat := 2 ^ 512

/-- A Rust `u64` value: a natural number below `2 ^ 64`. -/
abbrev U64 : Type := { n : Nat // n < u64Size }

/-- A `U512` value of the `uint` crate: a natural number below `2 ^ 512`. -/
abbrev U512 : Type := { n : Nat // n < u512Size }

def U512.val (a : U512) : Nat := a.1

def U512.zero : U512 := ⟨0, by norm_num [u512Size]⟩

/-- The largest `U512` value, `U512::MAX`. -/
def u512max : U512 := ⟨u512Size - 1, by norm_num [u512Size]⟩

def u512one : U512 := ⟨1, by norm_num [u512Size]⟩

/-- `U512::from(n: u64)`: widening a 64-bit value never overflows. -/
def U512.ofU64 (n : U64) : U512 :=
  ⟨n.1, lt_of_lt_of_le n.2 (by norm_num [u64Size, u512Size])⟩

/-- `U512::checked_add`: `Some` of the exact sum when it fits, else `None`. -/
def U512.checked_add (a b : U512) : Option U512 :=
  if h : a.1 + b.1 < u512Size then some ⟨a.1 + b.1, h⟩ else none

/-- `U512::checked_mul`: `Some` of the exact product when it fits, else `None`. -/
def U512.checked_mul (a b : U512) : Option U512 :=
  if h : a.1 * b.1 < u512Size then some ⟨a.1 * b.1, h⟩ else none

/-- Outcome of an unchecked Rust arithmetic operator: either a value or a
panic.  The `uint` crate's `+`, `-`, `*`, `/` panic (never wrap) on
overflow, underflow and division by zero. -/
inductive ArithOutcome (α : Type) where
  | ok (value : α)
  | panicked
deriving DecidableEq

def ArithOutcome.map {α β : Type} (f : α → β) : ArithOutcome α → ArithOutcome β
  | .ok v => .ok (f v)
  | .panicked => .panicked

/-- The `uint` crate's `+` on `U512`: exact sum, panicking on overflow. -/
def U512.addOp (a b : U512) : ArithOutcome U512 :=
  if h : a.1 + b.1 < u512Size then .ok ⟨a.1 + b.1, h⟩ else .panicked

/-- The `uint` crate's `-` on `U512`: exact difference, panicking on underflow. -/
def U512.subOp (a b : U512) : ArithOutcome U512 :=
  if b.1 ≤ a.1 then .ok ⟨a.1 - b.1, lt_of_le_of_lt (Nat.sub_le a.1 b.1) a.2⟩
  else .panicked

/-- The `uint` crate's `*` on `U512`: exact product, panicking on overflow. -/
def U512.mulOp (a b : U512) : ArithOutcome U512 :=
  if h : a.1 * b.1 < u512Size then .ok ⟨a.1 * b.1, h⟩ else .panicked

/-- The `uint` crate's `/` on `U512`: integer quotient, panicking when the
divisor is zero (the division-by-zero branch is otherwise unguarded). -/
def U512.divOp (a b : U512) : ArithOutcome U512 :=
  if b.1 = 0 then .panicked
  else .ok ⟨a.1 / b.1, lt_of_le_of_lt (Nat.div_le_self a.1 b.1) a.2⟩

/-! ## Gas and Motes (`engine-shared`) -/

/-- Modelled from the spec: `Gas` (engine-shared `gas.rs`, not part of the
excerpt) wraps a 512-bit unsigned integer and exposes `new` / `value`
(spec §4.1: "Each type wraps a 512-bit unsigned integer"). -/
structure Gas where
  u512 : U512
deriving DecidableEq

def Gas.new (value : U512) : Gas := ⟨value⟩

def Gas.value (g : Gas) : U512 := g.u512

/-- `pub struct Motes(U512)` from `engine-shared/src/motes.rs`. -/
structure Motes where
  u512 : U512
deriving DecidableEq

def Motes.new (value : U512) : Motes := ⟨value⟩

def Motes.value (m : Motes) : U512 := m.u512

/-- `Motes::checked_add`: `self.0.checked_add(rhs.value()).map(Self::new)`. -/
def Motes.checked_add (a rhs : Motes) : Option Motes :=
  (U512.checked_add a.u512 (Motes.value rhs)).map Motes.new

/-- `Motes::from_gas`:
`gas.value().checked_mul(U512::from(conv_rate)).map(Self::new)`. -/
def Motes.from_gas (gas : Gas) (conv_rate : U64) : Option Motes :=
  (U512.checked_mul (Gas.value gas) (U512.ofU64 conv_rate)).map Motes.new

/-- `Motes::from_u64`. -/
def Motes.from_u64 (value : U64) : Motes := Motes.mk (U512.ofU64 value)

/-- `impl Add for Motes`: `Motes::new(self.value() + rhs.value())` — the
unchecked `U512` sum. -/
def Motes.add (a rhs : Motes) : ArithOutcome Motes :=
  (U512.addOp (Motes.value a) (Motes.value rhs)).map Motes.new

/-- `impl Sub for Motes`: `Motes::new(self.value() - rhs.value())`. -/
def Motes.sub (a rhs : Motes) : ArithOutcome Motes :=
  (U512.subOp (Motes.value a) (Motes.value rhs)).map Motes.new

/-- `impl Div for Motes`: `Motes::new(self.value() / rhs.value())`. -/
def Motes.div (a rhs : Motes) : ArithOutcome Motes :=
  (U512.divOp (Motes.value a) (Motes.value rhs)).map Motes.new

/-- `impl Mul for Motes`: `Motes::new(self.value() * rhs.value())`. -/
def Motes.mul (a rhs : Motes) : ArithOutcome Motes :=
  (U512.mulOp (Motes.value a) (Motes.value rhs)).map Motes.new

/-- `impl Zero for Motes`: `Motes::new(U512::zero())`. -/
def Motes.zero : Motes := Motes.new U512.zero

/-- `#[derive(Default)]` on `Motes(U512)`: the default of the `uint` crate's
`U512` is zero. -/
def Motes.default : Motes := Motes.mk U512.zero

/-! ## The derived `Ord` on `Motes`

Rust derives `Ord`/`PartialOrd` on the single-field struct `Motes(U512)`,
which delegates to the `uint` crate's `Ord` for `U512`.  That instance
compares the little-endian limb array most-significant limb first
(`self.as_ref().iter().rev().cmp(...)`): a lexicographic comparison of the
big-endian base-`2^64` digit lists. -/

def natCmp (a b : Nat) : Ordering :=
  if a < b then .lt else if b < a then .gt else .eq

/-- Lexicographic comparison of two digit lists, as `Iterator::cmp` does. -/
def lexCompare : List Nat → List Nat → Ordering
  | [], [] => .eq
  | [], _ :: _ => .lt
  | _ :: _, [] => .gt
  | a :: l1, b :: l2 =>
    match natCmp a b with
    | .eq => lexCompare l1 l2
    | o => o

/-- The `k` base-`2^64` digits of `n`, most significant first. -/
def digitsBE : Nat → Nat → List Nat
  | 0, _ => []
  | k + 1, n => n / u64Size ^ k :: digitsBE k (n % u64Size ^ k)

/-- `Ord for U512` of the `uint` crate: big-endian limbwise comparison of
the eight 64-bit limbs. -/
def U512.cmp (a b : U512) : Ordering :=
  lexCompare (digitsBE 8 a.1) (digitsBE 8 b.1)

/-- The derived `Ord for Motes` compares the wrapped `U512`. -/
def Motes.cmp (a rhs : Motes) : Ordering :=
  U512.cmp (Motes.value a) (Motes.value rhs)

def Motes.lt (a rhs : Motes) : Prop := Motes.cmp a rhs = .lt

/-- Rust `<=` from the derived `Ord`: `cmp` is not `Greater`. -/
def Motes.le (a rhs : Motes) : Prop := Motes.cmp a rhs ≠ .gt

instance (a b : Motes) : Decidable (Motes.lt a b) :=
  inferInstanceAs (Decidable (Motes.cmp a b = .lt))

instance (a b : Motes) : Decidable (Motes.le a b) :=
  inferInstanceAs (Decidable (Motes.cmp a b ≠ .gt))

/-! ### Order agreement lemmas -/

theorem natCmp_lt {a b : Nat} (h : a < b) : natCmp a b = .lt := by
  simp [natCmp, h]

theorem natCmp_gt {a b : Nat} (h : b < a) : natCmp a b = .gt := by
  unfold natCmp
  rw [if_neg (Nat.lt_asymm h), if_pos h]

theorem natCmp_self (a : Nat) : natCmp a a = .eq := by
  simp [natCmp]

theorem natCmp_eq_lt_iff {a b : Nat} : natCmp a b = .lt ↔ a < b := by
  rcases Nat.lt_trichotomy a b with h | h | h
  · simp [natCmp_lt h, h]
  · subst h; simp [natCmp_self]
  · simp [natCmp_gt h]
    omega

theorem natCmp_eq_eq_iff {a b : Nat} : natCmp a b = .eq ↔ a = b := by
  rcases Nat.lt_trichotomy a b with h | h | h
  · simp [natCmp_lt h]; omega
  · subst h; simp [natCmp_self]
  · simp [natCmp_gt h]; omega

theorem lexCompare_digitsBE (k : Nat) :
    ∀ n m : Nat, n < u64Size ^ k → m < u64Size ^ k →
      lexCompare (digitsBE k n) (digitsBE k m) = natCmp n m := by
  induction k with
  | zero =>
    intro n m hn hm
    simp only [pow_zero, Nat.lt_one_iff] at hn hm
    subst hn; subst hm
    simp [digitsBE, lexCompare, natCmp_self]
  | succ k ih =>
    intro n m hn hm
    have hB : 0 < u64Size ^ k := Nat.pos_pow_of_pos k (by norm_num [u64Size])
    have hndm : n = u64Size ^ k * (n / u64Size ^ k) + n % u64Size ^ k :=
      (Nat.div_add_mod n (u64Size ^ k)).symm
    have hmdm : m = u64Size ^ k * (m / u64Size ^ k) + m % u64Size ^ k :=
      (Nat.div_add_mod m (u64Size ^ k)).symm
    have hnr : n % u64Size ^ k < u64Size ^ k := Nat.mod_lt _ hB
    have hmr : m % u64Size ^ k < u64Size ^ k := Nat.mod_lt _ hB
    have key : ∀ x y : Nat, x / u64Size ^ k < y / u64Size ^ k → x < y := by
      intro x y hxy
      calc x = u64Size ^ k * (x / u64Size ^ k) + x % u64Size ^ k :=
            (Nat.div_add_mod x (u64Size ^ k)).symm
        _ < u64Size ^ k * (x / u64Size ^ k) + u64Size ^ k :=
            Nat.add_lt_add_left (Nat.mod_lt _ hB) _
        _ = u64Size ^ k * (x / u64Size ^ k + 1) := by rw [Nat.mul_succ]
        _ ≤ u64Size ^ k * (y / u64Size ^ k) := Nat.mul_le_mul_left _ hxy
        _ ≤ u64Size ^ k * (y / u64Size ^ k) + y % u64Size ^ k := Nat.le_add_right _ _
        _ = y := Nat.div_add_mod y (u64Size ^ k)
    simp only [digitsBE, lexCompare]
    rcases Nat.lt_trichotomy (n / u64Size ^ k) (m / u64Size ^ k) with h | h | h
    · rw [natCmp_lt h, natCmp_lt (key n m h)]
    · rw [h, natCmp_self]
      rw [ih _ _ hnr hmr]
      rw [h] at hndm
      rcases Nat.lt_trichotomy (n % u64Size ^ k) (m % u64Size ^ k) with h2 | h2 | h2
      · have h3 : n < m := by
          conv_lhs => rw [hndm]
          conv_rhs => rw [hmdm]
          exact Nat.add_lt_add_left h2 _
        rw [natCmp_lt h2, natCmp_lt h3]
      · have h3 : n = m := by
          conv_lhs => rw [hndm]
          conv_rhs => rw [hmdm]
          rw [h2]
        rw [h2, natCmp_self, h3, natCmp_self]
      · have h3 : m < n := by
          conv_lhs => rw [hmdm]
          conv_rhs => rw [hndm]
          exact Nat.add_lt_add_left h2 _
        rw [natCmp_gt h2, natCmp_gt h3]
    · rw [natCmp_gt h, natCmp_gt (key m n h)]

set_option maxRecDepth 4000 in
theorem u512Size_eq_pow : u512Size = u64Size ^ 8 := by
  rw [u512Size, u64Size, ← pow_mul]

theorem U512.cmp_eq_natCmp (a b : U512) : U512.cmp a b = natCmp a.1 b.1 := by
  have ha : a.1 < u64Size ^ 8 := Nat.lt_of_lt_of_le a.2 (Nat.le_of_eq u512Size_eq_pow)
  have hb : b.1 < u64Size ^ 8 := Nat.lt_of_lt_of_le b.2 (Nat.le_of_eq u512Size_eq_pow)
  exact lexCompare_digitsBE 8 a.1 b.1 ha hb

theorem Motes.eq_iff_val_eq (a b : Motes) : a = b ↔ (Motes.value a).1 = (Motes.value b).1 := by
  cases a with | mk x =>
  cases b with | mk y =>
  simp [Motes.value, Subtype.ext_iff]

theorem natCmp_eq_gt_iff {a b : Nat} : natCmp a b = .gt ↔ b < a := by
  rcases Nat.lt_trichotomy a b with h | h | h
  · simp [natCmp_lt h]; omega
  · subst h; simp [natCmp_self]
  · simp [natCmp_gt h, h]

theorem U512.cmp_lt_iff (a b : U512) : U512.cmp a b = .lt ↔ a.1 < b.1 := by
  rw [U512.cmp_eq_natCmp]; exact natCmp_eq_lt_iff

theorem U512.cmp_eq_iff (a b : U512) : U512.cmp a b = .eq ↔ a.1 = b.1 := by
  rw [U512.cmp_eq_natCmp]; exact natCmp_eq_eq_iff

theorem U512.cmp_gt_iff (a b : U512) : U512.cmp a b = .gt ↔ b.1 < a.1 := by
  rw [U512.cmp_eq_natCmp]; exact natCmp_eq_gt_iff

theorem one_lt_u512Size : 1 < u512Size := by
  rw [u512Size]
  exact Nat.one_lt_two_pow (by norm_num)

theorem lt_u512Size_of_lt_u64Size {n : Nat} (h : n < u64Size) : n < u512Size :=
  lt_of_lt_of_le h (by rw [u512Size_eq_pow]; exact Nat.le_self_pow (by norm_num) _)

/-- A small `U512` literal, via the (overflow-free) 64-bit embedding. -/
def u512small (n : Nat) (h : n < u64Size) : U512 :=
  ⟨n, lt_u512Size_of_lt_u64Size h⟩

def u64ten : U64 := ⟨10, by norm_num [u64Size]⟩

/-! ## Claims about `Motes` arithmetic -/

/-- C3: `Motes::from_gas(g, r)` yields exactly the Motes whose value is the
integer product `g.value() * r` whenever that product fits in 512 bits, and
returns `None` — never a wrapped value — when it exceeds the 512-bit
maximum; in particular `Motes::from_gas(Gas::new(U512::MAX), 10)` is the
overflow failure `None`. -/
theorem from_gas_exact (g : Gas) (r : U64) :
    ((Gas.value g).1 * r.1 < u512Size →
      Option.map (fun m => (Motes.value m).1) (Motes.from_gas g r) =
        some ((Gas.value g).1 * r.1)) ∧
    (u512Size ≤ (Gas.value g).1 * r.1 → Motes.from_gas g r = none) ∧
    Motes.from_gas (Gas.new u512max) u64ten = none := by
  refine ⟨?_, ?_, ?_⟩
  · intro h
    simp only [Gas.value] at h
    simp [Motes.from_gas, U512.checked_mul, U512.ofU64, Motes.new, Motes.value,
      Gas.value, h]
  · intro h
    have h2 : ¬ (Gas.value g).1 * (U512.ofU64 r).1 < u512Size := by
      show ¬ (Gas.value g).1 * r.1 < u512Size
      omega
    simp [Motes.from_gas, U512.checked_mul, h2]
  · have h0 := one_lt_u512Size
    have h2 : ¬ (Gas.value (Gas.new u512max)).1 * (U512.ofU64 u64ten).1 < u512Size := by
      show ¬ (u512Size - 1) * 10 < u512Size
      omega
    simp [Motes.from_gas, U512.checked_mul, h2]

/-- Witness for C3: at gas 100 and rate 10 the hypothesis holds and the
conversion yields exactly 1000 motes. -/
theorem from_gas_exact_witness :
    Option.map (fun m => (Motes.value m).1)
      (Motes.from_gas (Gas.new (u512small 100 (by norm_num [u64Size]))) u64ten) =
      some 1000 := by
  have h := (from_gas_exact (Gas.new (u512small 100 (by norm_num [u64Size]))) u64ten).1
  have h2 : (Gas.value (Gas.new (u512small 100 (by norm_num [u64Size])))).1 * (u64ten).1 <
      u512Size := by
    show (100 : Nat) * 10 < u512Size
    exact lt_u512Size_of_lt_u64Size (by norm_num [u64Size])
  simpa using h h2

/-- C5: `Motes::checked_add` returns `Some` of the exact sum when it fits in
512 bits, and `None` — an explicit failure, neither a panic nor a
wraparound — when the sum exceeds the 512-bit maximum. -/
theorem checked_add_exact (a b : Motes) :
    ((Motes.value a).1 + (Motes.value b).1 < u512Size →
      Option.map (fun m => (Motes.value m).1) (Motes.checked_add a b) =
        some ((Motes.value a).1 + (Motes.value b).1)) ∧
    (u512Size ≤ (Motes.value a).1 + (Motes.value b).1 →
      Motes.checked_add a b = none) := by
  constructor
  · intro h
    simp only [Motes.value] at h
    simp [Motes.checked_add, U512.checked_add, Motes.new, Motes.value, h]
  · intro h
    simp only [Motes.value] at h
    have h2 : ¬ a.u512.1 + b.u512.1 < u512Size := by omega
    simp [Motes.checked_add, U512.checked_add, Motes.value, h2]

def motesMax : Motes := Motes.new u512max

def motesOne : Motes := Motes.new u512one

/-- Witness for C5: both branches are reachable — `1 + 1` succeeds with the
exact sum, and `U512::MAX + 1` is the explicit `None` failure. -/
theorem checked_add_exact_witness :
    Option.map (fun m => (Motes.value m).1)
      (Motes.checked_add motesOne motesOne) = some 2 ∧
    Motes.checked_add motesMax motesOne = none := by
  constructor
  · have h2 : (Motes.value motesOne).1 + (Motes.value motesOne).1 < u512Size := by
      show (1 : Nat) + 1 < u512Size
      exact lt_u512Size_of_lt_u64Size (by norm_num [u64Size])
    simpa using (checked_add_exact motesOne motesOne).1 h2
  · have h0 := one_lt_u512Size
    have h2 : u512Size ≤ (Motes.value motesMax).1 + (Motes.value motesOne).1 := by
      show u512Size ≤ u512Size - 1 + 1
      omega
    exact (checked_add_exact motesMax motesOne).2 h2

/-- C4 counterexample: the claim says every arithmetic operator fails
explicitly (rather than panicking) when the result does not fit in 512
bits.  At the concrete input `Motes::new(U512::MAX) + Motes::new(1)` the
`Add` operator delegates to the `uint` crate's unchecked `+`, which
panics — there is no explicit failure value. -/
theorem motes_add_overflow_panics :
    Motes.add motesMax motesOne = ArithOutcome.panicked := by
  have h0 := one_lt_u512Size
  have h2 : ¬ (Motes.value motesMax).1 + (Motes.value motesOne).1 < u512Size := by
    show ¬ u512Size - 1 + 1 < u512Size
    omega
  simp [Motes.add, U512.addOp, ArithOutcome.map, h2]

/-- C4 amended: the four operators on `Motes` are plain delegations to the
unchecked `U512` operators.  They never wrap around — whenever a value is
returned it is the exact mathematical result — but on overflow of `+`/`*`,
underflow of `-`, or a zero divisor for `/`, they panic instead of
returning an explicit failure; the explicit (`Option`) failure path exists
only in `checked_add` and `from_gas`. -/
theorem motes_ops_exact_or_panic (a b : Motes) :
    ((Motes.value a).1 + (Motes.value b).1 < u512Size →
      ArithOutcome.map (fun m => (Motes.value m).1) (Motes.add a b) =
        .ok ((Motes.value a).1 + (Motes.value b).1)) ∧
    (u512Size ≤ (Motes.value a).1 + (Motes.value b).1 →
      Motes.add a b = .panicked) ∧
    ((Motes.value b).1 ≤ (Motes.value a).1 →
      ArithOutcome.map (fun m => (Motes.value m).1) (Motes.sub a b) =
        .ok ((Motes.value a).1 - (Motes.value b).1)) ∧
    ((Motes.value a).1 < (Motes.value b).1 → Motes.sub a b = .panicked) ∧
    ((Motes.value a).1 * (Motes.value b).1 < u512Size →
      ArithOutcome.map (fun m => (Motes.value m).1) (Motes.mul a b) =
        .ok ((Motes.value a).1 * (Motes.value b).1)) ∧
    (u512Size ≤ (Motes.value a).1 * (Motes.value b).1 →
      Motes.mul a b = .panicked) ∧
    ((Motes.value b).1 ≠ 0 →
      ArithOutcome.map (fun m => (Motes.value m).1) (Motes.div a b) =
        .ok ((Motes.value a).1 / (Motes.value b).1)) ∧
    ((Motes.value b).1 = 0 → Motes.div a b = .panicked) := by
  refine ⟨?_, ?_, ?_, ?_, ?_, ?_, ?_, ?_⟩
  · intro h
    simp only [Motes.value] at h
    simp [Motes.add, U512.addOp, ArithOutcome.map, Motes.new, Motes.value, h]
  · intro h
    simp only [Motes.value] at h
    have h2 : ¬ a.u512.1 + b.u512.1 < u512Size := by omega
    simp [Motes.add, U512.addOp, ArithOutcome.map, Motes.value, h2]
  · intro h
    simp only [Motes.value] at h
    simp [Motes.sub, U512.subOp, ArithOutcome.map, Motes.new, Motes.value, h]
  · intro h
    simp only [Motes.value] at h
    have h2 : ¬ b.u512.1 ≤ a.u512.1 := by omega
    simp [Motes.sub, U512.subOp, ArithOutcome.map, Motes.value, h2]
  · intro h
    simp only [Motes.value] at h
    simp [Motes.mul, U512.mulOp, ArithOutcome.map, Motes.new, Motes.value, h]
  · intro h
    simp only [Motes.value] at h
    have h2 : ¬ a.u512.1 * b.u512.1 < u512Size := by omega
    simp [Motes.mul, U512.mulOp, ArithOutcome.map, Motes.value, h2]
  · intro h
    simp only [Motes.value] at h
    simp [Motes.div, U512.divOp, ArithOutcome.map, Motes.new, Motes.value, h]
  · intro h
    simp only [Motes.value] at h
    simp [Motes.div, U512.divOp, ArithOutcome.map, Motes.value, h]

/-- Witness for the amended C4: at `3` and `2` every hypothesis side is
concretely dischargeable — exact sum, difference, product and quotient. -/
theorem motes_ops_exact_or_panic_witness :
    ArithOutcome.map (fun m => (Motes.value m).1)
      (Motes.add (Motes.new (u512small 3 (by norm_num [u64Size])))
        (Motes.new (u512small 2 (by norm_num [u64Size])))) = .ok 5 ∧
    ArithOutcome.map (fun m => (Motes.value m).1)
      (Motes.sub (Motes.new (u512small 3 (by norm_num [u64Size])))
        (Motes.new (u512small 2 (by norm_num [u64Size])))) = .ok 1 ∧
    ArithOutcome.map (fun m => (Motes.value m).1)
      (Motes.mul (Motes.new (u512small 3 (by norm_num [u64Size])))
        (Motes.new (u512small 2 (by norm_num [u64Size])))) = .ok 6 ∧
    ArithOutcome.map (fun m => (Motes.value m).1)
      (Motes.div (Motes.new (u512small 3 (by norm_num [u64Size])))
        (Motes.new (u512small 2 (by norm_num [u64Size])))) = .ok 1 := by
  have h := motes_ops_exact_or_panic
    (Motes.new (u512small 3 (by norm_num [u64Size])))
    (Motes.new (u512small 2 (by norm_num [u64Size])))
  have h5 : (5 : Nat) < u512Size := lt_u512Size_of_lt_u64Size (by norm_num [u64Size])
  have h6 : (6 : Nat) < u512Size := lt_u512Size_of_lt_u64Size (by norm_num [u64Size])
  refine ⟨?_, ?_, ?_, ?_⟩
  · simpa using h.1 h5
  · simpa using h.2.2.1 (by show (2 : Nat) ≤ 3; norm_num)
  · simpa using h.2.2.2.2.1 h6
  · simpa using h.2.2.2.2.2.2.1 (by show (2 : Nat) ≠ 0; norm_num)

/-- C9: the derived ordering on `Motes` is total and agrees with the order
of the wrapped 512-bit integers — `a < b` iff `a.value() < b.value()`,
`a <= b` iff `a.value() <= b.value()`, comparison yields `Equal` exactly on
equal Motes, exactly one of `a < b`, `a == b`, `b < a` holds — and the
derived default value equals zero. -/
theorem motes_order_total (a b : Motes) :
    (Motes.lt a b ↔ (Motes.value a).1 < (Motes.value b).1) ∧
    (Motes.le a b ↔ (Motes.value a).1 ≤ (Motes.value b).1) ∧
    (Motes.cmp a b = .eq ↔ a = b) ∧
    (Motes.lt a b ∨ a = b ∨ Motes.lt b a) ∧
    (¬ (Motes.lt a b ∧ a = b)) ∧
    (¬ (Motes.lt a b ∧ Motes.lt b a)) ∧
    (¬ (a = b ∧ Motes.lt b a)) ∧
    Motes.default = Motes.zero ∧ (Motes.value Motes.default).1 = 0 := by
  have hlt : Motes.lt a b ↔ (Motes.value a).1 < (Motes.value b).1 :=
    U512.cmp_lt_iff (Motes.value a) (Motes.value b)
  have hlt2 : Motes.lt b a ↔ (Motes.value b).1 < (Motes.value a).1 :=
    U512.cmp_lt_iff (Motes.value b) (Motes.value a)
  have heq : Motes.cmp a b = .eq ↔ a = b := by
    rw [Motes.cmp, U512.cmp_eq_iff, Motes.eq_iff_val_eq]
  have hle : Motes.le a b ↔ (Motes.value a).1 ≤ (Motes.value b).1 := by
    rw [Motes.le, Motes.cmp, ne_eq, U512.cmp_gt_iff, not_lt]
  have heqv := Motes.eq_iff_val_eq a b
  refine ⟨hlt, hle, heq, ?_, ?_, ?_, ?_, rfl, rfl⟩
  · rcases Nat.lt_trichotomy (Motes.value a).1 (Motes.value b).1 with h | h | h
    · exact Or.inl (hlt.mpr h)
    · exact Or.inr (Or.inl (heqv.mpr h))
    · exact Or.inr (Or.inr (hlt2.mpr h))
  · rintro ⟨h1, h2⟩
    rw [hlt] at h1
    rw [heqv] at h2
    omega
  · rintro ⟨h1, h2⟩
    rw [hlt] at h1
    rw [hlt2] at h2
    omega
  · rintro ⟨h1, h2⟩
    rw [heqv] at h1
    rw [hlt2] at h2
    omega

/-- Witness for C9, at the concrete pair `1 < 2`: the order agrees with the
wrapped integers and is strict there. -/
theorem motes_order_total_witness :
    Motes.lt (Motes.new u512one) (Motes.new (u512small 2 (by norm_num [u64Size]))) ∧
    ¬ (Motes.new u512one = Motes.new (u512small 2 (by norm_num [u64Size]))) := by
  have h := motes_order_total (Motes.new u512one)
    (Motes.new (u512small 2 (by norm_num [u64Size])))
  have h1 : (Motes.value (Motes.new u512one)).1 <
      (Motes.value (Motes.new (u512small 2 (by norm_num [u64Size])))).1 := by
    show (1 : Nat) < 2
    norm_num
  refine ⟨h.1.mpr h1, fun hEq => ?_⟩
  exact h.2.2.2.2.1 ⟨h.1.mpr h1, hEq⟩

/-- C10: division on `Motes` computes the exact integer quotient of the
wrapped values whenever the divisor is non-zero; the implementation does
not guard the divisor, so a zero divisor panics (the operation produces no
result), and under the non-zero precondition that branch is unreachable. -/
theorem motes_div_unguarded (a b : Motes) :
    ((Motes.value b).1 ≠ 0 →
      ArithOutcome.map (fun m => (Motes.value m).1) (Motes.div a b) =
        .ok ((Motes.value a).1 / (Motes.value b).1)) ∧
    ((Motes.value b).1 = 0 → Motes.div a b = .panicked) := by
  constructor
  · intro h
    simp only [Motes.value] at h
    simp [Motes.div, U512.divOp, ArithOutcome.map, Motes.new, Motes.value, h]
  · intro h
    simp only [Motes.value] at h
    simp [Motes.div, U512.divOp, ArithOutcome.map, Motes.value, h]

/-- Witness for C10: `1000 / 100 = 10` exactly, and division by zero
panics. -/
theorem motes_div_unguarded_witness :
    ArithOutcome.map (fun m => (Motes.value m).1)
      (Motes.div (Motes.new (u512small 1000 (by norm_num [u64Size])))
        (Motes.new (u512small 100 (by norm_num [u64Size])))) = .ok 10 ∧
    Motes.div (Motes.new (u512small 1000 (by norm_num [u64Size])))
      (Motes.new U512.zero) = .panicked := by
  constructor
  · have h := (motes_div_unguarded
      (Motes.new (u512small 1000 (by norm_num [u64Size])))
      (Motes.new (u512small 100 (by norm_num [u64Size])))).1
      (by show (100 : Nat) ≠ 0; norm_num)
    simpa using h
  · exact (motes_div_unguarded
      (Motes.new (u512small 1000 (by norm_num [u64Size])))
      (Motes.new U512.zero)).2 rfl

/-! ## State addressing and the effect model

The global-state store, commit engine and genesis bootstrap are not part of
the excerpted sources (only their tests are), so this part of the model is
written from the specification, as each doc comment records. -/

/-- Modelled from the spec (§3): the access-rights bitmask (read/write/add)
carried by a `URef` — a capability checked before any dereferencing
operation. -/
structure AccessRights where
  canRead : Bool
  canWrite : Bool
  canAdd : Bool
deriving DecidableEq

def fullRights : AccessRights := ⟨true, true, true⟩

/-- Modelled from the spec (§3): a `Key` is a discriminated address into
global state — `Account`, `Hash`, `URef` (with an optional rights mask) or
`Local` (a scoped sub-key); byte payloads are lists of bytes. -/
inductive Key where
  | account (id : List Nat)
  | hash (id : List Nat)
  | uref (id : List Nat) (rights : Option AccessRights)
  | localKey (seed : List Nat) (sub : List Nat)
deriving DecidableEq

/-- Modelled from the spec (§3): an `Account` value — balance purse
reference, associated keys, action thresholds and a nonce. -/
structure Account where
  pub_key : List Nat
  purse_id : List Nat
  associated_keys : List (List Nat × Nat)
  action_thresholds : Nat × Nat
  nonce : Nat
deriving DecidableEq

/-- Modelled from the spec (§3): a `Contract` value — bytecode plus a
named-key table. -/
structure Contract where
  bytecode : List Nat
  named_keys : List (String × Key)
  protocol_version : Nat
deriving DecidableEq

/-- Modelled from the spec (§3): `CLValue` — typed scalar/composite data
such as `U512`, `Option<u64>`, strings. -/
inductive CLValue where
  | u512 (v : U512)
  | i128 (v : Int)
  | optU64 (v : Option U64)
  | str (s : String)
deriving DecidableEq

/-- Modelled from the spec (§3): the tagged union of storable payloads. -/
inductive Value where
  | account (a : Account)
  | contract (c : Contract)
  | clvalue (v : CLValue)
  | unit
deriving DecidableEq

/-- Modelled from the spec (§3): a `Transform` — the effect an execution
step requests at a key. -/
inductive Transform where
  | identity
  | write (v : Value)
  | addI128 (amount : Int)
  | addU512 (amount : U512)
  | addKeys (m : List (String × Key))
deriving DecidableEq

/-- Modelled from the spec (§7): structured commit failures — effect
conflicts, arithmetic overflow, access-rights violations, unknown roots. -/
inductive CommitError where
  | typeMismatch
  | additionOverflow
  | accessDenied
  | unknownRoot
deriving DecidableEq

/-- Insert one named-key entry, replacing an existing entry with the same
name. -/
def insertNamedKey (l : List (String × Key)) (e : String × Key) : List (String × Key) :=
  match l with
  | [] => [e]
  | x :: r => if x.1 = e.1 then e :: r else x :: insertNamedKey r e

/-- Modelled from the spec (§3, `AddKeys`): merge named-key entries into an
existing table, the incoming mapping taking precedence. -/
def mergeNamedKeys (l m : List (String × Key)) : List (String × Key) :=
  m.foldl insertNamedKey l

/-- Modelled from the spec (§3, §4.3): apply one transform to the current
value at its key.  `Identity` is read-only; `Write` replaces
unconditionally; `Add*` accumulates onto an existing numeric value and
fails if the target is not numeric (overflow fails too, per §1 "must never
silently overflow"); `AddKeys` merges named-key entries into a contract.
`.ok none` means "leave the key unchanged". -/
def applyTransform (old : Option Value) : Transform → Except CommitError (Option Value)
  | .identity => .ok none
  | .write v => .ok (some v)
  | .addU512 n =>
    match old with
    | some (.clvalue (.u512 m)) =>
      match U512.checked_add m n with
      | some s => .ok (some (.clvalue (.u512 s)))
      | none => .error .additionOverflow
    | _ => .error .typeMismatch
  | .addI128 n =>
    match old with
    | some (.clvalue (.i128 m)) =>
      if -(2 ^ 127) ≤ m + n ∧ m + n < 2 ^ 127 then .ok (some (.clvalue (.i128 (m + n))))
      else .error .additionOverflow
    | _ => .error .typeMismatch
  | .addKeys m =>
    match old with
    | some (.contract c) =>
      .ok (some (.contract ⟨c.bytecode, mergeNamedKeys c.named_keys m, c.protocol_version⟩))
    | _ => .error .typeMismatch

/-- Modelled from the spec (§4.3): a `URef`-addressed mutation must carry
the matching right on the key used; `Identity` mutates nothing; non-`URef`
keys carry no rights mask. -/
def rightsOk (k : Key) (t : Transform) : Bool :=
  match k with
  | .uref _ rights =>
    match t with
    | .identity => true
    | _ =>
      match rights, t with
      | some r, .write _ => r.canWrite
      | some r, _ => r.canAdd
      | none, _ => false
  | _ => true

/-- Modelled from the spec (§4.2): global state under one root is a finite
map from keys to values.  The content-addressed 32-byte root hash is
idealised as the snapshot itself: content addressing is collision-free, so
root hashes are in bijection with snapshots and hash equality is snapshot
equality. -/
abbrev StateMap : Type := Finmap (fun _ : Key => Value)

/-- The distinguished empty root: the hash of the canonical empty trie. -/
def emptyRoot : StateMap := ∅

/-- The per-key outcome of one transform: either an error or an optional
replacement value for that key. -/
def stepEffect (st : StateMap) (a : Key × Transform) : Except CommitError (Option Value) :=
  if rightsOk a.1 a.2 then applyTransform (Finmap.lookup a.1 st) a.2
  else .error .accessDenied

/-- Apply an optional replacement value at a key. -/
def applyOpt (k : Key) (v : Option Value) (st : StateMap) : StateMap :=
  match v with
  | none => st
  | some v2 => Finmap.insert k v2 st

/-- One step of the commit engine: validate rights, apply the transform at
its key, and rewrite that key. -/
def commitStep (st : StateMap) (a : Key × Transform) : Except CommitError StateMap :=
  match stepEffect st a with
  | .ok v => .ok (applyOpt a.1 v st)
  | .error e => .error e

/-- Modelled from the spec (§4.2, §4.3): commit folds a transform set over
the snapshot at the input root, all-or-nothing — the first failing
transform rejects the whole commit. -/
def commit (st : StateMap) : List (Key × Transform) → Except CommitError StateMap
  | [] => .ok st
  | a :: rest =>
    match commitStep st a with
    | .ok st2 => commit st2 rest
    | .error e => .error e

/-- Modelled from the spec (§4.2): a store is the collection of published
roots (snapshots); nodes are immutable, so stores only grow. -/
abbrev Store : Type := List StateMap

/-- Modelled from the spec (§4.2): committing against a store requires a
known root; the derived snapshot is published and returned as the new
root.  An unknown root is a structured error. -/
def commitStore (store : Store) (root : StateMap) (ts : List (Key × Transform)) :
    Except CommitError (Store × StateMap) :=
  if root ∈ store then
    match commit root ts with
    | .ok st => .ok (st :: store, st)
    | .error e => .error e
  else .error .unknownRoot

/-! ### Commit determinism: order-independence across distinct keys -/

theorem applyOpt_lookup_ne (k : Key) (v : Option Value) (st : StateMap)
    (k2 : Key) (h : k2 ≠ k) :
    Finmap.lookup k2 (applyOpt k v st) = Finmap.lookup k2 st := by
  cases v with
  | none => rfl
  | some v2 => exact Finmap.lookup_insert_of_ne st h

theorem applyOpt_comm (k1 k2 : Key) (hne : k1 ≠ k2) (v1 v2 : Option Value)
    (st : StateMap) :
    applyOpt k2 v2 (applyOpt k1 v1 st) = applyOpt k1 v1 (applyOpt k2 v2 st) := by
  cases v1 with
  | none => rfl
  | some w1 =>
    cases v2 with
    | none => rfl
    | some w2 => exact Finmap.insert_insert_of_ne st hne

theorem stepEffect_congr {st1 st2 : StateMap} (a : Key × Transform)
    (h : Finmap.lookup a.1 st1 = Finmap.lookup a.1 st2) :
    stepEffect st1 a = stepEffect st2 a := by
  rw [stepEffect, stepEffect, h]


/-- Two commit steps at distinct keys commute on success: either order
yields `.ok r` for exactly the same `r` (failing orders may differ only in
which error they report). -/
theorem commitStep_bind_comm (a b : Key × Transform) (hne : a.1 ≠ b.1)
    (st r : StateMap) :
    ((commitStep st a).bind fun s => commitStep s b) = .ok r ↔
    ((commitStep st b).bind fun s => commitStep s a) = .ok r := by
  cases hea : stepEffect st a with
  | error e1 =>
    have hca : commitStep st a = .error e1 := by simp only [commitStep, hea]
    cases heb : stepEffect st b with
    | error e2 =>
      have hcb : commitStep st b = .error e2 := by simp only [commitStep, heb]
      rw [hca, hcb]
      simp [Except.bind]
    | ok v2 =>
      have hcb : commitStep st b = .ok (applyOpt b.1 v2 st) := by
        simp only [commitStep, heb]
      have hea2 : stepEffect (applyOpt b.1 v2 st) a = .error e1 := by
        rw [stepEffect_congr a (applyOpt_lookup_ne b.1 v2 st a.1 hne), hea]
      have hca2 : commitStep (applyOpt b.1 v2 st) a = .error e1 := by
        simp only [commitStep, hea2]
      rw [hca, hcb]
      simp [Except.bind, hca2]
  | ok v1 =>
    have hca : commitStep st a = .ok (applyOpt a.1 v1 st) := by
      simp only [commitStep, hea]
    cases heb : stepEffect st b with
    | error e2 =>
      have hcb : commitStep st b = .error e2 := by simp only [commitStep, heb]
      have heb2 : stepEffect (applyOpt a.1 v1 st) b = .error e2 := by
        rw [stepEffect_congr b (applyOpt_lookup_ne a.1 v1 st b.1 (Ne.symm hne)), heb]
      have hcb2 : commitStep (applyOpt a.1 v1 st) b = .error e2 := by
        simp only [commitStep, heb2]
      rw [hca, hcb]
      simp [Except.bind, hcb2]
    | ok v2 =>
      have hcb : commitStep st b = .ok (applyOpt b.1 v2 st) := by
        simp only [commitStep, heb]
      have heb2 : stepEffect (applyOpt a.1 v1 st) b = .ok v2 := by
        rw [stepEffect_congr b (applyOpt_lookup_ne a.1 v1 st b.1 (Ne.symm hne)), heb]
      have hea2 : stepEffect (applyOpt b.1 v2 st) a = .ok v1 := by
        rw [stepEffect_congr a (applyOpt_lookup_ne b.1 v2 st a.1 hne), hea]
      have hcb2 : commitStep (applyOpt a.1 v1 st) b =
          .ok (applyOpt b.1 v2 (applyOpt a.1 v1 st)) := by
        simp only [commitStep, heb2]
      have hca2 : commitStep (applyOpt b.1 v2 st) a =
          .ok (applyOpt a.1 v1 (applyOpt b.1 v2 st)) := by
        simp only [commitStep, hea2]
      rw [hca, hcb]
      simp only [Except.bind, hcb2, hca2, applyOpt_comm a.1 b.1 hne v1 v2 st]

theorem commit_cons (st : StateMap) (a : Key × Transform)
    (l : List (Key × Transform)) :
    commit st (a :: l) = (commitStep st a).bind fun s => commit s l := by
  cases h : commitStep st a <;> simp [commit, h, Except.bind]

theorem commit_append (st : StateMap) (l1 l2 : List (Key × Transform)) :
    commit st (l1 ++ l2) = (commit st l1).bind fun s => commit s l2 := by
  induction l1 generalizing st with
  | nil => simp [commit, Except.bind]
  | cons a l ih =>
    rw [List.cons_append, commit_cons, commit_cons]
    cases h : commitStep st a with
    | ok s => simp [Except.bind, ih s]
    | error e => simp [Except.bind]

theorem commit_two_bind (st : StateMap) (a b : Key × Transform)
    (l : List (Key × Transform)) :
    commit st (a :: b :: l) =
      ((commitStep st a).bind fun s => commitStep s b).bind fun s2 => commit s2 l := by
  rw [commit_cons]
  cases h : commitStep st a with
  | ok s => simp [Except.bind, commit_cons]
  | error e => simp [Except.bind]

theorem bind_ok_congr (e1 e2 : Except CommitError StateMap)
    (h : ∀ s, e1 = .ok s ↔ e2 = .ok s)
    (f : StateMap → Except CommitError StateMap) (r : StateMap) :
    (e1.bind f = .ok r) ↔ (e2.bind f = .ok r) := by
  cases e1 with
  | ok s1 =>
    have h2 : e2 = .ok s1 := (h s1).mp rfl
    rw [h2]
  | error er1 =>
    cases e2 with
    | ok s2 =>
      have h2 : Except.error er1 = Except.ok s2 := (h s2).mpr rfl
      simp at h2
    | error er2 => simp [Except.bind]

/-- Commit is invariant under reordering a transform set whose keys are
distinct: any permutation succeeds with the same snapshot. -/
theorem commit_ok_of_perm {ts1 ts2 : List (Key × Transform)}
    (hperm : ts1.Perm ts2) :
    ∀ st r : StateMap, (ts1.map Prod.fst).Nodup →
      (commit st ts1 = .ok r ↔ commit st ts2 = .ok r) := by
  induction hperm with
  | nil => intro st r _; exact Iff.rfl
  | cons x h ih =>
    intro st r hnd
    rw [List.map_cons, List.nodup_cons] at hnd
    rw [commit_cons, commit_cons]
    cases hstep : commitStep st x with
    | ok s => simpa [Except.bind] using ih s r hnd.2
    | error e => simp [Except.bind]
  | swap x y l =>
    intro st r hnd
    rw [List.map_cons, List.map_cons, List.nodup_cons] at hnd
    have hne : y.1 ≠ x.1 := fun hEq => hnd.1 (by rw [hEq]; exact List.mem_cons_self _ _)
    rw [commit_two_bind, commit_two_bind]
    exact bind_ok_congr _ _ (fun s => commitStep_bind_comm y x hne st s) _ r
  | trans h1 h2 ih1 ih2 =>
    intro st r hnd
    have hnd2 := ((h1.map Prod.fst).nodup_iff).mp hnd
    exact (ih1 st r hnd).trans (ih2 st r hnd2)

/-- C2: for every valid (root, transform set) pair, commit is
deterministic — the resulting root depends only on the input root and the
set of effective per-key changes: any reordering of a transform set with
distinct keys succeeds with exactly the same root, and two invocations on
(possibly different) stores that both know the input root return identical
root hashes. -/
theorem commit_deterministic (root : StateMap) (ts1 ts2 : List (Key × Transform))
    (hperm : ts1.Perm ts2) (hnd : (ts1.map Prod.fst).Nodup) :
    (∀ r : StateMap, commit root ts1 = .ok r ↔ commit root ts2 = .ok r) ∧
    (∀ (s1 s2 : Store) (st1 : Store) (r1 : StateMap) (st2 : Store) (r2 : StateMap),
      commitStore s1 root ts1 = .ok (st1, r1) →
      commitStore s2 root ts2 = .ok (st2, r2) → r1 = r2) := by
  have hmain := commit_ok_of_perm hperm root
  constructor
  · intro r; exact hmain r hnd
  · intro s1 s2 st1 r1 st2 r2 h1 h2
    rw [commitStore] at h1 h2
    by_cases hm1 : root ∈ s1
    · by_cases hm2 : root ∈ s2
      · rw [if_pos hm1] at h1
        rw [if_pos hm2] at h2
        cases hc1 : commit root ts1 with
        | error e => rw [hc1] at h1; simp at h1
        | ok v1 =>
          cases hc2 : commit root ts2 with
          | error e => rw [hc2] at h2; simp at h2
          | ok v2 =>
            rw [hc1] at h1
            rw [hc2] at h2
            simp only [Except.ok.injEq, Prod.mk.injEq] at h1 h2
            have hv : commit root ts2 = .ok v1 := (hmain v1 hnd).mp hc1
            rw [hc2] at hv
            simp only [Except.ok.injEq] at hv
            rw [← h1.2, ← h2.2, hv]
      · rw [if_neg hm2] at h2; simp at h2
    · rw [if_neg hm1] at h1; simp at h1

def keyA : Key := Key.account [1]

def keyB : Key := Key.account [2]

def writeUnitA : Key × Transform := (keyA, Transform.write Value.unit)

def writeUnitB : Key × Transform := (keyB, Transform.write Value.unit)

/-- Witness for C2: the two orders of a concrete two-key transform set
commit from the empty root to the identical snapshot. -/
theorem commit_deterministic_witness :
    commit emptyRoot [writeUnitB, writeUnitA] =
      .ok (Finmap.insert keyB Value.unit (Finmap.insert keyA Value.unit ∅)) := by
  have h := (commit_deterministic emptyRoot [writeUnitA, writeUnitB]
    [writeUnitB, writeUnitA] (List.Perm.swap writeUnitB writeUnitA [])
    (by decide)).1
  exact (h (Finmap.insert keyB Value.unit (Finmap.insert keyA Value.unit ∅))).mp rfl

/-! ## Genesis bootstrap (modelled from the spec, §4.4 and §6) -/

/-- Modelled from the spec (§3): a `GenesisAccount` — public key, initial
Motes balance and initial bonded Motes amount; ephemeral, consumed during
genesis construction. -/
structure GenesisAccount where
  public_key : List Nat
  balance : Motes
  bonded_amount : Motes
deriving DecidableEq

/-- Modelled from the spec (§4.4, §1): installer byte-code is run by the
external WebAssembly interpreter (out of scope, specified only at its
boundary), and either yields a valid `Contract` value or fails to — e.g. a
non-contract artifact.  The byte-code blob is modelled by that observable
outcome. -/
inductive InstallerCode where
  | yields (c : Contract)
  | invalid
deriving DecidableEq

/-- Executing installer byte-code as a pseudo-deploy: the `Contract` value
it produces, if any. -/
def execInstaller : InstallerCode → Option Contract
  | .yields c => some c
  | .invalid => none

/-- Modelled from the spec (§6): genesis input — chain name, timestamp,
protocol version, the two installer blobs, the account list and a
cost-table version tag. -/
structure GenesisConfig where
  name : String
  timestamp : Nat
  protocol_version : Nat
  mint_installer : InstallerCode
  pos_installer : InstallerCode
  accounts : List GenesisAccount
  wasm_costs_version : Nat
deriving DecidableEq

/-- The fixed well-known system account address (spec §4.4). -/
def SYSTEM_ACCOUNT_ADDR : List Nat := List.replicate 32 0

def mintURefId : List Nat := [0]

def posURefId : List Nat := [1]

def systemPurseId : List Nat := [2]

/-- The purse `URef` id seeded for a genesis account, derived from its
public key (distinct from the mint/pos/system ids by its head byte). -/
def purseIdOf (pk : List Nat) : List Nat := 3 :: pk

def mintKey : Key := Key.uref mintURefId (some fullRights)

def posKey : Key := Key.uref posURefId (some fullRights)

def purseKeyOf (pk : List Nat) : Key := Key.uref (purseIdOf pk) (some fullRights)

/-- The `Account` value a genesis account is translated into (spec §3:
GenesisAccount "is translated into `Account` values"). -/
def mkGenesisAccountValue (a : GenesisAccount) : Account :=
  ⟨a.public_key, purseIdOf a.public_key, [(a.public_key, 1)], (1, 1), 0⟩

/-- The system account: zero balance, fixed well-known address (§4.4). -/
def systemAccount : Account :=
  ⟨SYSTEM_ACCOUNT_ADDR, systemPurseId, [(SYSTEM_ACCOUNT_ADDR, 1)], (1, 1), 0⟩

/-- The named-key entry recording a genesis account's initial stake with
the proof-of-stake contract (stake encoded in the name, as the PoS
contract does). -/
def bondEntry (a : GenesisAccount) : String × Key :=
  ("v_" ++ toString a.public_key ++ "_" ++ toString (Motes.value a.bonded_amount).1,
    Key.hash a.public_key)

/-- Modelled from the spec (§4.4): the transforms contributed by one
genesis account — an account write, a purse-seeding write of its balance,
and a bonding transform that records its stake with the PoS contract. -/
def accountTransforms (a : GenesisAccount) : List (Key × Transform) :=
  [(Key.account a.public_key, Transform.write (Value.account (mkGenesisAccountValue a))),
   (purseKeyOf a.public_key, Transform.write (Value.clvalue (CLValue.u512 (Motes.value a.balance)))),
   (posKey, Transform.addKeys [bondEntry a])]

/-- Modelled from the spec (§4.4): the recorded genesis transform set —
mint and proof-of-stake contract installation, the system account with a
zero-balance purse, then each genesis account's transforms. -/
def genesisTransforms (cfg : GenesisConfig) (mintC posC : Contract) :
    List (Key × Transform) :=
  [(mintKey, Transform.write (Value.contract mintC)),
   (posKey, Transform.write (Value.contract posC)),
   (Key.account SYSTEM_ACCOUNT_ADDR, Transform.write (Value.account systemAccount)),
   (Key.uref systemPurseId (some fullRights),
     Transform.write (Value.clvalue (CLValue.u512 U512.zero)))]
  ++ (cfg.accounts.map accountTransforms).flatten

/-- Direct ("live") construction of the state after installing the system
contracts and the system account. -/
def genesisBaseState (mintC posC : Contract) : StateMap :=
  Finmap.insert (Key.uref systemPurseId (some fullRights))
    (Value.clvalue (CLValue.u512 U512.zero))
    (Finmap.insert (Key.account SYSTEM_ACCOUNT_ADDR) (Value.account systemAccount)
      (Finmap.insert posKey (Value.contract posC)
        (Finmap.insert mintKey (Value.contract mintC) ∅)))

/-- Direct ("live") per-account state construction: store the account and
its seeded purse, and merge its bond into the PoS contract in place. -/
def applyGenesisAccountLive (st : StateMap) (a : GenesisAccount) : StateMap :=
  let st2 := Finmap.insert (purseKeyOf a.public_key)
    (Value.clvalue (CLValue.u512 (Motes.value a.balance)))
    (Finmap.insert (Key.account a.public_key)
      (Value.account (mkGenesisAccountValue a)) st)
  match Finmap.lookup posKey st2 with
  | some (Value.contract c) =>
    Finmap.insert posKey
      (Value.contract ⟨c.bytecode, mergeNamedKeys c.named_keys [bondEntry a],
        c.protocol_version⟩) st2
  | _ => st2

/-- The state produced by executing genesis end-to-end ("live"): install
the system contracts, then fold in the genesis accounts. -/
def genesisLiveState (cfg : GenesisConfig) (mintC posC : Contract) : StateMap :=
  cfg.accounts.foldl applyGenesisAccountLive (genesisBaseState mintC posC)

/-- Modelled from the spec (§7 (e)): genesis failures. -/
inductive GenesisError where
  | invalidMintInstaller
  | invalidPosInstaller
  | commitFailed (e : CommitError)
deriving DecidableEq

/-- Modelled from the spec (§4.4): run genesis against a store — execute
the mint installer, then the PoS installer; if either fails to produce a
`Contract`, fail atomically with the store untouched; otherwise build the
genesis transform set, commit it against the empty root and return the new
root together with the recorded transforms. -/
def runGenesis (store : Store) (cfg : GenesisConfig) :
    Store × Except GenesisError (StateMap × List (Key × Transform)) :=
  match execInstaller cfg.mint_installer with
  | none => (store, .error .invalidMintInstaller)
  | some mintC =>
    match execInstaller cfg.pos_installer with
    | none => (store, .error .invalidPosInstaller)
    | some posC =>
      let ts := genesisTransforms cfg mintC posC
      match commitStore store emptyRoot ts with
      | .error e => (store, .error (.commitFailed e))
      | .ok (store2, root) => (store2, .ok (root, ts))

theorem posKey_ne_purse (pk : List Nat) : posKey ≠ purseKeyOf pk := by
  simp [posKey, purseKeyOf, posURefId, purseIdOf]

theorem posKey_ne_account (pk : List Nat) : posKey ≠ Key.account pk := by
  simp [posKey]

theorem lookup_posKey_base (mintC posC : Contract) :
    Finmap.lookup posKey (genesisBaseState mintC posC) = some (Value.contract posC) := by
  rw [genesisBaseState,
    Finmap.lookup_insert_of_ne _ (by decide),
    Finmap.lookup_insert_of_ne _ (by decide),
    Finmap.lookup_insert]

/-- Committing one genesis account's recorded transforms is exactly the
live per-account construction, whenever the PoS contract is installed. -/
theorem commit_accountTransforms (st : StateMap) (a : GenesisAccount)
    (c : Contract) (hc : Finmap.lookup posKey st = some (Value.contract c)) :
    commit st (accountTransforms a) = .ok (applyGenesisAccountLive st a) := by
  have hl2 : Finmap.lookup posKey
      (Finmap.insert (purseKeyOf a.public_key)
        (Value.clvalue (CLValue.u512 (Motes.value a.balance)))
        (Finmap.insert (Key.account a.public_key)
          (Value.account (mkGenesisAccountValue a)) st)) =
      some (Value.contract c) := by
    rw [Finmap.lookup_insert_of_ne _ (posKey_ne_purse a.public_key),
      Finmap.lookup_insert_of_ne _ (posKey_ne_account a.public_key), hc]
  simp only [purseKeyOf, purseIdOf, posKey, posURefId, fullRights] at hl2
  simp only [accountTransforms, commit, commitStep, stepEffect, rightsOk,
    applyTransform, applyOpt, applyGenesisAccountLive, fullRights, purseKeyOf,
    purseIdOf, posKey, posURefId, eq_self_iff_true, if_true, hl2]

/-- Committing the recorded per-account transforms of a whole account list
equals the live fold, given an installed PoS contract. -/
theorem commit_genesisAccounts (accounts : List GenesisAccount) :
    ∀ (st : StateMap) (c : Contract),
      Finmap.lookup posKey st = some (Value.contract c) →
      commit st (accounts.map accountTransforms).flatten =
        .ok (accounts.foldl applyGenesisAccountLive st) := by
  induction accounts with
  | nil => intro st c hc; rfl
  | cons a rest ih =>
    intro st c hc
    have hl2 : Finmap.lookup posKey
        (Finmap.insert (purseKeyOf a.public_key)
          (Value.clvalue (CLValue.u512 (Motes.value a.balance)))
          (Finmap.insert (Key.account a.public_key)
            (Value.account (mkGenesisAccountValue a)) st)) =
        some (Value.contract c) := by
      rw [Finmap.lookup_insert_of_ne _ (posKey_ne_purse a.public_key),
        Finmap.lookup_insert_of_ne _ (posKey_ne_account a.public_key), hc]
    have hnew : Finmap.lookup posKey (applyGenesisAccountLive st a) =
        some (Value.contract ⟨c.bytecode,
          mergeNamedKeys c.named_keys [bondEntry a], c.protocol_version⟩) := by
      simp only [applyGenesisAccountLive, hl2]
      exact Finmap.lookup_insert _
    rw [List.map_cons, List.flatten_cons, commit_append,
      commit_accountTransforms st a c hc]
    simp only [Except.bind, List.foldl_cons]
    exact ih (applyGenesisAccountLive st a) _ hnew

/-- Replay equality: committing the recorded genesis transform set against
the empty root yields exactly the live genesis state. -/
theorem commit_genesisTransforms (cfg : GenesisConfig) (mintC posC : Contract) :
    commit emptyRoot (genesisTransforms cfg mintC posC) =
      .ok (genesisLiveState cfg mintC posC) := by
  rw [genesisTransforms, commit_append]
  have hbase : commit emptyRoot
      [(mintKey, Transform.write (Value.contract mintC)),
       (posKey, Transform.write (Value.contract posC)),
       (Key.account SYSTEM_ACCOUNT_ADDR, Transform.write (Value.account systemAccount)),
       (Key.uref systemPurseId (some fullRights),
         Transform.write (Value.clvalue (CLValue.u512 U512.zero)))] =
      .ok (genesisBaseState mintC posC) := rfl
  rw [hbase]
  simp only [Except.bind]
  exact commit_genesisAccounts cfg.accounts (genesisBaseState mintC posC) posC
    (lookup_posKey_base mintC posC)

/-- C1: for identical genesis inputs, the root produced by executing
genesis directly ("live") equals the root obtained by committing genesis's
recorded transform set onto the empty root hash; and running genesis again
with the same inputs — against the same or any other store that knows the
empty root — reproduces the same root hash. -/
theorem genesis_hash_match (store : Store) (cfg : GenesisConfig)
    (mintC posC : Contract)
    (hm : execInstaller cfg.mint_installer = some mintC)
    (hp : execInstaller cfg.pos_installer = some posC)
    (hempty : emptyRoot ∈ store) :
    commit emptyRoot (genesisTransforms cfg mintC posC) =
      .ok (genesisLiveState cfg mintC posC) ∧
    runGenesis store cfg =
      (genesisLiveState cfg mintC posC :: store,
        .ok (genesisLiveState cfg mintC posC, genesisTransforms cfg mintC posC)) ∧
    (∀ store2 : Store, emptyRoot ∈ store2 →
      (runGenesis store2 cfg).2 =
        .ok (genesisLiveState cfg mintC posC, genesisTransforms cfg mintC posC)) := by
  have hc := commit_genesisTransforms cfg mintC posC
  have hrun : ∀ s : Store, emptyRoot ∈ s → runGenesis s cfg =
      (genesisLiveState cfg mintC posC :: s,
        .ok (genesisLiveState cfg mintC posC, genesisTransforms cfg mintC posC)) := by
    intro s hs
    simp only [runGenesis, hm, hp, commitStore, if_pos hs, hc]
  exact ⟨hc, hrun store hempty, fun s2 hs2 => by rw [hrun s2 hs2]⟩

/-- C6: if either installer fails to produce a valid `Contract` value,
genesis fails with a structured error and the store is returned exactly as
it was — nothing is committed, no partial system-contract installation is
observable. -/
theorem genesis_atomic_failure (store : Store) (cfg : GenesisConfig) :
    (execInstaller cfg.mint_installer = none →
      runGenesis store cfg = (store, .error .invalidMintInstaller)) ∧
    (∀ mintC : Contract, execInstaller cfg.mint_installer = some mintC →
      execInstaller cfg.pos_installer = none →
      runGenesis store cfg = (store, .error .invalidPosInstaller)) := by
  constructor
  · intro h
    simp only [runGenesis, h]
  · intro mintC hm hp
    simp only [runGenesis, hm, hp]

def mintCW : Contract := ⟨[7], [], 1⟩

def posCW : Contract := ⟨[8], [], 1⟩

def acctW : GenesisAccount :=
  ⟨List.replicate 32 1, Motes.new (u512small 1000 (by norm_num [u64Size])),
    Motes.new (u512small 10 (by norm_num [u64Size]))⟩

def cfgW : GenesisConfig :=
  ⟨"Jeremiah", 0, 1, InstallerCode.yields mintCW, InstallerCode.yields posCW,
    [acctW], 1⟩

/-- Witness for C1: a concrete one-account chainspec on a fresh store —
replaying the recorded transform set over the empty root gives exactly the
live genesis state. -/
theorem genesis_hash_match_witness :
    commit emptyRoot (genesisTransforms cfgW mintCW posCW) =
      .ok (genesisLiveState cfgW mintCW posCW) ∧
    (runGenesis [emptyRoot] cfgW).2 =
      .ok (genesisLiveState cfgW mintCW posCW, genesisTransforms cfgW mintCW posCW) := by
  have h := genesis_hash_match [emptyRoot] cfgW mintCW posCW rfl rfl
    (List.mem_singleton.mpr rfl)
  exact ⟨h.1, h.2.2 [emptyRoot] (List.mem_singleton.mpr rfl)⟩

def cfgBadMint : GenesisConfig :=
  ⟨"Jeremiah", 0, 1, InstallerCode.invalid, InstallerCode.yields posCW, [acctW], 1⟩

def cfgBadPos : GenesisConfig :=
  ⟨"Jeremiah", 0, 1, InstallerCode.yields mintCW, InstallerCode.invalid, [acctW], 1⟩

/-- Witness for C6: a bad mint installer and a bad PoS installer each make
genesis fail with its own error, leaving the concrete store untouched. -/
theorem genesis_atomic_failure_witness :
    runGenesis [emptyRoot] cfgBadMint = ([emptyRoot], .error .invalidMintInstaller) ∧
    runGenesis [emptyRoot] cfgBadPos = ([emptyRoot], .error .invalidPosInstaller) :=
  ⟨(genesis_atomic_failure [emptyRoot] cfgBadMint).1 rfl,
   (genesis_atomic_failure [emptyRoot] cfgBadPos).2 mintCW rfl rfl⟩

/-! ## The unbonding client contract (`contracts/client/unbonding`) -/

/-- Modelled from the spec (§4.5): a checked pointer obtained from a `URef`
key that carries access rights — the dereferenceable capability form
(`UPointer`). -/
structure UPointer where
  id : List Nat
  rights : AccessRights
deriving DecidableEq

/-- Modelled from the spec (§4.5): a pointer to a contract — by content
hash or by a rights-carrying `URef`. -/
inductive ContractPointer where
  | hash (id : List Nat)
  | uref (p : UPointer)
deriving DecidableEq

/-- Modelled from the spec (§4.5): `Key::to_u_ptr` — only a `URef` key that
actually carries access rights converts to a dereferenceable pointer;
"any failure to resolve the name, wrong key variant, or insufficient
access rights must abort". -/
def Key.to_u_ptr : Key → Option UPointer
  | .uref id (some r) => some ⟨id, r⟩
  | _ => none

/-- Modelled from the spec (§4.5): `Key::to_c_ptr` — the dereferenced value
must be a contract key: a `Hash`, or a rights-carrying `URef`. -/
def Key.to_c_ptr : Key → Option ContractPointer
  | .hash id => some (ContractPointer.hash id)
  | .uref id (some r) => some (ContractPointer.uref ⟨id, r⟩)
  | _ => none

/-- The host-side inputs of one invocation of the unbonding contract: the
result of `get_uref("pos")` in the caller's named-key table, the `Key`
value read through the resulting pointer, and the deserialized first
positional argument of type `Option<u64>`. -/
structure UnbondEnv where
  pos_named_key : Option Key
  read_value : Key
  arg0 : Option U64
deriving DecidableEq

/-- Observable outcome of the unbonding contract's `call`: an abort with a
revert code, or a cross-contract call with a method name and argument. -/
inductive CallOutcome where
  | reverted (code : Nat)
  | called (target : ContractPointer) (method : String) (amount : Option U512)
deriving DecidableEq

/-- `call()` from `contracts/client/unbonding/src/lib.rs`: resolve the name
`"pos"` (`unwrap_or_revert(..., 55)`), require a dereferenceable `URef`
pointer (`unwrap_or_revert(..., 66)`), read the contract key through it
and convert it to a contract pointer (`unwrap_or_revert(..., 77)`), then
call the `"unbond"` method with the `Option<u64>` argument widened by
`.map(U512::from)`. -/
def callUnbonding (env : UnbondEnv) : CallOutcome :=
  match env.pos_named_key with
  | none => .reverted 55
  | some pos_uref =>
    match pos_uref.to_u_ptr with
    | none => .reverted 66
    | some _pos_public =>
      match env.read_value.to_c_ptr with
      | none => .reverted 77
      | some pos_pointer =>
        .called pos_pointer "unbond" (env.arg0.map U512.ofU64)

/-- C7: whenever the unbonding call reaches the cross-contract call, the
method invoked is `"unbond"` and the single `Option<u64>` argument is
forwarded with `None` passed through unchanged and `Some(n)` widened
exactly to `Some(U512::from(n))`. -/
theorem unbond_arg_forwarding (env : UnbondEnv) (p : ContractPointer)
    (m : String) (amt : Option U512)
    (h : callUnbonding env = .called p m amt) :
    m = "unbond" ∧
    amt = Option.map U512.ofU64 env.arg0 ∧
    (env.arg0 = none → amt = none) ∧
    (∀ n : U64, env.arg0 = some n →
      amt = some (U512.ofU64 n) ∧ (U512.ofU64 n).1 = n.1) := by
  cases hk : env.pos_named_key with
  | none => simp [callUnbonding, hk] at h
  | some k =>
    cases hu : k.to_u_ptr with
    | none => simp [callUnbonding, hk, hu] at h
    | some up =>
      cases hc : env.read_value.to_c_ptr with
      | none => simp [callUnbonding, hk, hu, hc] at h
      | some cp =>
        simp only [callUnbonding, hk, hu, hc] at h
        rw [CallOutcome.called.injEq] at h
        obtain ⟨h1, h2, h3⟩ := h
        refine ⟨h2.symm, h3.symm, ?_, ?_⟩
        · intro hn
          rw [← h3, hn]
          rfl
        · intro n hn
          constructor
          · rw [← h3, hn]
            rfl
          · rfl

/-- C8: each name-resolution failure aborts the whole call before the
cross-contract call, with its own distinct revert code — 55 when `"pos"`
does not resolve, 66 when the resolved key is not a dereferenceable URef
pointer, 77 when the dereferenced value is not a contract key — and a
reverted call never reaches the contract (no partial unbonding). -/
theorem unbond_distinct_revert_codes (env : UnbondEnv) :
    (env.pos_named_key = none → callUnbonding env = .reverted 55) ∧
    (∀ k : Key, env.pos_named_key = some k → k.to_u_ptr = none →
      callUnbonding env = .reverted 66) ∧
    (∀ (k : Key) (up : UPointer), env.pos_named_key = some k →
      k.to_u_ptr = some up → env.read_value.to_c_ptr = none →
      callUnbonding env = .reverted 77) ∧
    ((55 : Nat) ≠ 66 ∧ (55 : Nat) ≠ 77 ∧ (66 : Nat) ≠ 77) ∧
    (∀ code : Nat, callUnbonding env = .reverted code →
      ∀ (p : ContractPointer) (m : String) (amt : Option U512),
        callUnbonding env ≠ .called p m amt) := by
  refine ⟨?_, ?_, ?_, ⟨by norm_num, by norm_num, by norm_num⟩, ?_⟩
  · intro h
    simp [callUnbonding, h]
  · intro k hk hu
    simp [callUnbonding, hk, hu]
  · intro k up hk hu hc
    simp [callUnbonding, hk, hu, hc]
  · intro code hcode p m amt hcall
    rw [hcode] at hcall
    exact absurd hcall (by simp)

def u64thousand : U64 := ⟨1000, by norm_num [u64Size]⟩

def envOk : UnbondEnv :=
  ⟨some (Key.uref [5] (some fullRights)), Key.hash [9], some u64thousand⟩

def envOkNone : UnbondEnv :=
  ⟨some (Key.uref [5] (some fullRights)), Key.hash [9], none⟩

/-- Witness for C7: on a concrete successful resolution, `Some 1000` is
widened exactly to `Some (U512::from 1000)` and `None` is passed through;
the method called is `"unbond"`. -/
theorem unbond_arg_forwarding_witness :
    ((some (U512.ofU64 u64thousand) : Option U512) =
      Option.map U512.ofU64 envOk.arg0) ∧
    ((none : Option U512) = Option.map U512.ofU64 envOkNone.arg0) ∧
    (U512.ofU64 u64thousand).1 = 1000 := by
  have h1 := unbond_arg_forwarding envOk (ContractPointer.hash [9]) "unbond"
    (some (U512.ofU64 u64thousand)) rfl
  have h2 := unbond_arg_forwarding envOkNone (ContractPointer.hash [9]) "unbond"
    none rfl
  exact ⟨h1.2.1, h2.2.1, (h1.2.2.2 u64thousand rfl).2⟩

def envNoName : UnbondEnv := ⟨none, Key.hash [9], some u64thousand⟩

def envBadURef : UnbondEnv := ⟨some (Key.hash [4]), Key.hash [9], none⟩

def envBadContract : UnbondEnv :=
  ⟨some (Key.uref [5] (some fullRights)), Key.account [9], none⟩

/-- Witness for C8: each of the three failure modes occurs at a concrete
input and yields its own revert code. -/
theorem unbond_distinct_revert_codes_witness :
    callUnbonding envNoName = .reverted 55 ∧
    callUnbonding envBadURef = .reverted 66 ∧
    callUnbonding envBadContract = .reverted 77 :=
  ⟨(unbond_distinct_revert_codes envNoName).1 rfl,
   (unbond_distinct_revert_codes envBadURef).2.1 (Key.hash [4]) rfl rfl,
   (unbond_distinct_revert_codes envBadContract).2.2.1 (Key.uref [5] (some fullRights))
     ⟨[5], fullRights⟩ rfl rfl rfl⟩
